import Mathlib

/-!
Verification development for the AdvancedCacheManager storage subsystem.

The definitions below are a shallow embedding of the C++ sources:

* `src/include/storage/Message.h`    — request / response message records
* `src/include/storage/RamHandler.h` — the in-memory store (map, eviction
  queue, usage accounting, background TTL sweep and size eviction)
* `src/include/storage/DiskHandler.h` — the SQLite-backed durable store,
  modelled over a plain table of rows
* `src/include/storage/StorageHandler.h` — the storage router; the two tiers
  appear as oracle functions (the router holds no state of its own)
* `src/include/eventbus/EventBus.h`  — only the subscription lookup that
  `send` performs before dispatch (missing subscription raises
  "Event not found!")
* `src/include/network/UnixSocket.h` — the reply packaging: a handler
  exception becomes a JSON object with an `error` field

Machine details that the claims depend on are modelled explicitly:
`Clock::time_point` is a `Nat` instant with `Clock::time_point::max()` as the
sentinel `timePointMax`; `std::string::capacity()` and the various `sizeof`
constants of `calculateExactEntryUsage` are abstracted into a `SizeModel`
whose `capacity` is a pure function of the string contents (the code always
applies the same function on the add and the remove path, which is what the
accounting claims are about).  The eviction-queue iterator stored inside a
`RamEntry` always designates the multimap node `(entry.insertionTime, key)`;
erasing through the iterator is modelled as removing one occurrence of that
node from the queue list.  The `size_t` usage counter is a `Nat`; every
subtraction performed by the code is shown to be in range on the reachable
states (the subtracted entry is live, so its usage is part of the sum the
counter equals), where `Nat` and `size_t` arithmetic coincide.
-/

/-- Clock::time_point::max(), the "never expires" sentinel
(steady_clock uses a signed 64-bit tick count). -/
def timePointMax : Nat := 2 ^ 63 - 1

/-! ### Message records (src/include/storage/Message.h) -/

structure SetEventMessage where
  id : String
  persistent : Bool
  ttl : Int
  key : String
  value : String
  group : String
deriving Repr, DecidableEq

structure GetKeyEventMessage where
  id : String
  key : String
deriving Repr, DecidableEq

structure GetGroupEventMessage where
  id : String
  group : String
deriving Repr, DecidableEq

structure DeleteKeyEventMessage where
  id : String
  key : String
deriving Repr, DecidableEq

structure DeleteGroupEventMessage where
  id : String
  group : String
deriving Repr, DecidableEq

structure ListEventMessage where
  id : String
deriving Repr, DecidableEq

structure SetResponseMessage where
  id : String
  response : Bool
deriving Repr, DecidableEq

structure GetKeyResponseMessage where
  id : String
  response : String
deriving Repr, DecidableEq

structure KeyValue where
  key : String
  value : String
deriving Repr, DecidableEq

structure GetGroupResponseMessage where
  id : String
  response : List KeyValue
deriving Repr, DecidableEq

structure DeleteKeyResponseMessage where
  id : String
  response : Int
deriving Repr, DecidableEq

structure DeleteGroupResponseMessage where
  id : String
  response : Int
deriving Repr, DecidableEq

structure StorageEntry where
  key : String
  value : String
  group : String
deriving Repr, DecidableEq

/-- Name kept from the source, typo included. -/
structure ListEventReponseMessage where
  id : String
  response : List StorageEntry
deriving Repr, DecidableEq

/-! ### RamHandler state (src/include/storage/RamHandler.h) -/

/-- An entry of the in-memory store.  The `evictionIt` iterator field of the
C++ struct is not stored: it always designates the eviction-queue node
`(insertionTime, key)`, and erase-through-iterator is modelled by removing
that node. -/
structure RamEntry where
  value : String
  group : String
  insertionTime : Nat
  expirationTime : Nat
deriving Repr, DecidableEq

/-- Abstraction of the byte-size quantities used by
`RamHandler::calculateExactEntryUsage`: the `sizeof(std::string)` header, the
two `sizeof(Clock::time_point)` fields, the `sizeof` of the eviction-queue
iterator, and `capacity(s) * sizeof(char)` as a pure function of the string
contents. -/
structure SizeModel where
  stringHeader : Nat
  timePoint : Nat
  iterator : Nat
  capacity : String → Nat

/-- A concrete instantiation usable for evaluation: header sizes of the
x86-64 libstdc++ build and `capacity = length` (the spec explicitly allows
substituting length for capacity as long as the same function is used
symmetrically). -/
def byteModel : SizeModel :=
  { stringHeader := 32, timePoint := 8, iterator := 8, capacity := String.length }

/-- RamHandler::calculateExactEntryUsage, line for line. -/
def calculateExactEntryUsage (m : SizeModel) (key : String) (entry : RamEntry) : Nat :=
  m.stringHeader + m.capacity key
    + m.stringHeader + m.capacity entry.value
    + m.stringHeader + m.capacity entry.group
    + m.timePoint + m.timePoint
    + m.iterator

/-- The mutable state of a RamHandler: `store_` (unordered_map, modelled as an
association list with the map membership facts proved as invariants),
`evictionQueue_` (multimap sorted by instant, oldest first), `maxSizeBytes_`
and `currentUsage_`. -/
structure RamState where
  store : List (String × RamEntry)
  evictionQueue : List (Nat × String)
  maxSizeBytes : Nat
  currentUsage : Nat
deriving Repr, DecidableEq

/-- The constructor state: empty map and queue, usage 0, cap in MB. -/
def RamState.init (maxSizeMB : Nat) : RamState :=
  { store := [], evictionQueue := [], maxSizeBytes := maxSizeMB * 1024 * 1024,
    currentUsage := 0 }

/-- unordered_map::find — the first (and, by the map invariant, only) entry
under the key. -/
def mapFind? {β : Type} : List (String × β) → String → Option β
  | [], _ => none
  | (k', e) :: rest, k => if k' = k then some e else mapFind? rest k

/-- unordered_map::erase of the node found for the key. -/
def mapErase {β : Type} : List (String × β) → String → List (String × β)
  | [], _ => []
  | (k', e) :: rest, k => if k' = k then rest else (k', e) :: mapErase rest k

/-- multimap::insert: the node is placed after every node with an instant
less than or equal to its own (ties broken by arrival, as the container
does). -/
def mmInsert : List (Nat × String) → Nat → String → List (Nat × String)
  | [], t, k => [(t, k)]
  | (t', k') :: rest, t, k =>
    if t' ≤ t then (t', k') :: mmInsert rest t k
    else (t, k) :: (t', k') :: rest

/-- multimap::erase through a stored iterator: removes the one node the
iterator designates, here the first occurrence of `(t, k)`. -/
def mmEraseNode : List (Nat × String) → Nat → String → List (Nat × String)
  | [], _, _ => []
  | (t', k') :: rest, t, k =>
    if t' = t ∧ k' = k then rest else (t', k') :: mmEraseNode rest t k

namespace RamHandler

/-- RamHandler::handleSetEvent.  The source also computes a local
`entrySize = key.size() + value.size()` that is never used; it is omitted. -/
def handleSetEvent (m : SizeModel) (s : RamState) (msg : SetEventMessage)
    (now : Nat) : RamState × SetResponseMessage :=
  let (store₁, queue₁, usage₁) :=
    match mapFind? s.store msg.key with
    | some old =>
      (mapErase s.store msg.key,
       mmEraseNode s.evictionQueue old.insertionTime msg.key,
       s.currentUsage - calculateExactEntryUsage m msg.key old)
    | none => (s.store, s.evictionQueue, s.currentUsage)
  let entry : RamEntry :=
    { value := msg.value
      group := msg.group
      insertionTime := now
      expirationTime := if msg.ttl > 0 then now + msg.ttl.toNat else timePointMax }
  let queue₂ := mmInsert queue₁ now msg.key
  let usage₂ := usage₁ + calculateExactEntryUsage m msg.key entry
  let store₂ := (msg.key, entry) :: store₁
  ({ s with store := store₂, evictionQueue := queue₂, currentUsage := usage₂ },
   { id := msg.id, response := true })

/-- RamHandler::handleGetKeyEvent.  The source computes `now = Clock::now()`
but never consults it: the branch is on map membership only. -/
def handleGetKeyEvent (s : RamState) (msg : GetKeyEventMessage) (now : Nat) :
    GetKeyResponseMessage :=
  match mapFind? s.store msg.key with
  | some e => { id := msg.id, response := e.value }
  | none => { id := msg.id, response := "" }

/-- The iteration of RamHandler::handleGetGroupEvent: push every entry whose
group matches. -/
def collectGroup (g : String) : List (String × RamEntry) → List KeyValue
  | [] => []
  | (k, e) :: rest =>
    if e.group = g then { key := k, value := e.value } :: collectGroup g rest
    else collectGroup g rest

/-- RamHandler::handleGetGroupEvent. -/
def handleGetGroupEvent (s : RamState) (msg : GetGroupEventMessage) :
    GetGroupResponseMessage :=
  { id := msg.id, response := collectGroup msg.group s.store }

/-- RamHandler::handleDeleteKeyEvent. -/
def handleDeleteKeyEvent (m : SizeModel) (s : RamState)
    (msg : DeleteKeyEventMessage) : RamState × DeleteKeyResponseMessage :=
  match mapFind? s.store msg.key with
  | some e =>
    ({ s with
        currentUsage := s.currentUsage - calculateExactEntryUsage m msg.key e
        evictionQueue := mmEraseNode s.evictionQueue e.insertionTime msg.key
        store := mapErase s.store msg.key },
     { id := msg.id, response := 1 })
  | none => (s, { id := msg.id, response := 0 })

/-- The erase-while-iterating loop of RamHandler::handleDeleteGroupEvent,
threading the queue, the usage counter and the removal count. -/
def deleteGroupLoop (m : SizeModel) (g : String) :
    List (String × RamEntry) → List (Nat × String) → Nat → Nat →
    List (String × RamEntry) × List (Nat × String) × Nat × Nat
  | [], q, u, c => ([], q, u, c)
  | (k, e) :: rest, q, u, c =>
    if e.group = g then
      deleteGroupLoop m g rest (mmEraseNode q e.insertionTime k)
        (u - calculateExactEntryUsage m k e) (c + 1)
    else
      let r := deleteGroupLoop m g rest q u c
      ((k, e) :: r.1, r.2)

/-- RamHandler::handleDeleteGroupEvent. -/
def handleDeleteGroupEvent (m : SizeModel) (s : RamState)
    (msg : DeleteGroupEventMessage) : RamState × DeleteGroupResponseMessage :=
  let r := deleteGroupLoop m msg.group s.store s.evictionQueue s.currentUsage 0
  ({ s with store := r.1, evictionQueue := r.2.1, currentUsage := r.2.2.1 },
   { id := msg.id, response := (r.2.2.2 : Nat) })

/-- RamHandler::handleListEvent. -/
def handleListEvent (s : RamState) (msg : ListEventMessage) :
    ListEventReponseMessage :=
  { id := msg.id
    response := s.store.map fun p =>
      { key := p.1, value := p.2.value, group := p.2.group } }

/-- The TTL sweep of RamHandler::backgroundChecker: one pass over the map
removing every entry with `now >= expirationTime`, maintaining the queue and
the usage counter. -/
def ttlSweepLoop (m : SizeModel) (now : Nat) :
    List (String × RamEntry) → List (Nat × String) → Nat →
    List (String × RamEntry) × List (Nat × String) × Nat
  | [], q, u => ([], q, u)
  | (k, e) :: rest, q, u =>
    if now ≥ e.expirationTime then
      ttlSweepLoop m now rest (mmEraseNode q e.insertionTime k)
        (u - calculateExactEntryUsage m k e)
    else
      let r := ttlSweepLoop m now rest q u
      ((k, e) :: r.1, r.2)

/-- One iteration of the size-eviction while-loop of
RamHandler::backgroundChecker: take the queue front; if the key is still in
the map remove it from everything, otherwise (the defensive branch) erase
just the queue node. -/
def sizeEvictStep (m : SizeModel) (s : RamState) : RamState :=
  match s.evictionQueue with
  | [] => s
  | (_, key) :: rest =>
    match mapFind? s.store key with
    | some e =>
      { s with
          currentUsage := s.currentUsage - calculateExactEntryUsage m key e
          evictionQueue := rest
          store := mapErase s.store key }
    | none => { s with evictionQueue := rest }

/-- The size-eviction while-loop: repeat while `currentUsage > maxSizeBytes`
and the queue is non-empty.  Terminates because every iteration shortens the
queue by one node. -/
def sizeEvictLoop (m : SizeModel) (s : RamState) : RamState :=
  if h : s.currentUsage > s.maxSizeBytes ∧ s.evictionQueue ≠ [] then
    sizeEvictLoop m (sizeEvictStep m s)
  else s
termination_by s.evictionQueue.length
decreasing_by
  cases hq : s.evictionQueue with
  | nil => exact absurd hq h.2
  | cons hd tl =>
    simp only [sizeEvictStep, hq]
    cases hd with
    | mk t key =>
      cases mapFind? s.store key <;> simp

/-- One wakeup of RamHandler::backgroundChecker under the lock: TTL sweep,
then size-driven eviction. -/
def backgroundCheckerTick (m : SizeModel) (s : RamState) (now : Nat) : RamState :=
  let r := ttlSweepLoop m now s.store s.evictionQueue s.currentUsage
  sizeEvictLoop m
    { s with store := r.1, evictionQueue := r.2.1, currentUsage := r.2.2 }

end RamHandler

/-! ### DiskHandler (src/include/storage/DiskHandler.h)

The SQLite table `store (key TEXT PRIMARY KEY, value TEXT, group_name TEXT)`
is modelled as a list of rows.  Only the operation semantics of the executed
SQL statements is embedded; engine errors are out of scope (every statement
is assumed to step to completion, matching the non-error path of the code).
-/

structure DiskRow where
  key : String
  value : String
  group_name : String
deriving Repr, DecidableEq

/-- The rows of the `store` table. -/
def DiskState := List DiskRow

namespace DiskHandler

/-- Handler for SET: INSERT OR REPLACE — any row under the key is replaced. -/
def handleSetEvent (d : DiskState) (msg : SetEventMessage) :
    DiskState × SetResponseMessage :=
  (List.filter (fun r => r.key ≠ msg.key) d
     ++ [{ key := msg.key, value := msg.value, group_name := msg.group }],
   { id := msg.id, response := true })

/-- Handler for GET KEY: SELECT value FROM store WHERE key = ?; the first row
if any, else the empty string. -/
def handleGetKeyEvent (d : DiskState) (msg : GetKeyEventMessage) :
    GetKeyResponseMessage :=
  match List.find? (fun r => r.key = msg.key) d with
  | some r => { id := msg.id, response := r.value }
  | none => { id := msg.id, response := "" }

/-- Handler for GET GROUP: SELECT key, value FROM store WHERE group_name = ?. -/
def handleGetGroupEvent (d : DiskState) (msg : GetGroupEventMessage) :
    GetGroupResponseMessage :=
  { id := msg.id
    response := (List.filter (fun r => r.group_name = msg.group) d).map
      fun r => { key := r.key, value := r.value } }

/-- Handler for DELETE KEY: DELETE FROM store WHERE key = ?; the response is
1 when sqlite3_changes reports at least one removed row, else 0. -/
def handleDeleteKeyEvent (d : DiskState) (msg : DeleteKeyEventMessage) :
    DiskState × DeleteKeyResponseMessage :=
  let changes := (List.filter (fun r => r.key = msg.key) d).length
  (List.filter (fun r => r.key ≠ msg.key) d,
   { id := msg.id, response := if changes > 0 then 1 else 0 })

/-- Handler for DELETE GROUP: DELETE FROM store WHERE group_name = ?; the
response is the sqlite3_changes row count. -/
def handleDeleteGroupEvent (d : DiskState) (msg : DeleteGroupEventMessage) :
    DiskState × DeleteGroupResponseMessage :=
  let changes := (List.filter (fun r => r.group_name = msg.group) d).length
  (List.filter (fun r => r.group_name ≠ msg.group) d,
   { id := msg.id, response := (changes : Nat) })

/-- The DiskHandler constructor subscribes handlers for SetEventMessage,
GetKeyEventMessage, GetGroupEventMessage, DeleteKeyEventMessage and
DeleteGroupEventMessage — and for no other message type.  In particular
there is no subscribe call for ListEventMessage, so the registry holds no
list handler for HandlerID::DiskHandler. -/
def listSubscription : Option (ListEventMessage → ListEventReponseMessage) :=
  none

/-- The RamHandler constructor, by contrast, does subscribe a handler for
ListEventMessage. -/
def ramListSubscription (s : RamState) :
    Option (ListEventMessage → ListEventReponseMessage) :=
  some (RamHandler.handleListEvent s)

end DiskHandler

/-! ### EventBus subscription lookup (src/include/eventbus/EventBus.h)

`EventBus::send` looks up the target handler's registry entry for the runtime
type of the message before enqueueing anything; when no subscription exists it
throws "Event not found!".  Only this lookup is modelled — a registered
handler is simply applied. -/

namespace EventBus

def send {α β : Type} (subscription : Option (α → β)) (msg : α) :
    Except String β :=
  match subscription with
  | some h => Except.ok (h msg)
  | none => Except.error "Event not found!"

end EventBus

/-! ### StorageHandler, the router (src/include/storage/StorageHandler.h)

The router is stateless; the two tiers enter as oracle functions standing for
`eventBus_.send<...>(HandlerID::RamHandler / DiskHandler, msg).get()`.  A
thrown validation exception is an `Except.error` carrying the exception
message.  Because the oracles are explicit parameters, "the tier was not
consulted" is expressed as independence of the result from the corresponding
oracle. -/

namespace StorageHandler

/-- StorageHandler::handleSetEvent: validate, then forward to exactly one
tier by the persistent flag, rewriting the reply id. -/
def handleSetEvent (ramSet diskSet : SetEventMessage → SetResponseMessage)
    (msg : SetEventMessage) : Except String SetResponseMessage :=
  if msg.key = "" ∨ msg.value = "" then
    Except.error "Invalid key or value."
  else if msg.persistent then
    let diskResp := diskSet msg
    Except.ok { diskResp with id := msg.id }
  else
    let ramResp := ramSet msg
    Except.ok { ramResp with id := msg.id }

/-- StorageHandler::handleGetKeyEvent: validate, query RAM, and fall through
to the disk tier only when the RAM answer is empty. -/
def handleGetKeyEvent
    (ramGet diskGet : GetKeyEventMessage → GetKeyResponseMessage)
    (msg : GetKeyEventMessage) : Except String GetKeyResponseMessage :=
  if msg.key = "" then Except.error "Invalid key name"
  else
    let ramResp := ramGet msg
    if ramResp.response ≠ "" then Except.ok ramResp
    else Except.ok (diskGet msg)

/-- StorageHandler::handleGetGroupEvent: validate, query both tiers, return
the concatenation with the RAM entries prepended. -/
def handleGetGroupEvent
    (ramGet diskGet : GetGroupEventMessage → GetGroupResponseMessage)
    (msg : GetGroupEventMessage) : Except String GetGroupResponseMessage :=
  if msg.group = "" then Except.error "Invalid group name"
  else
    let ramResp := ramGet msg
    let diskResp := diskGet msg
    Except.ok { id := msg.id, response := ramResp.response ++ diskResp.response }

/-- StorageHandler::handleDeleteKeyEvent: validate, dispatch to both tiers,
reply with the sum of the two numeric results. -/
def handleDeleteKeyEvent
    (ramDel diskDel : DeleteKeyEventMessage → DeleteKeyResponseMessage)
    (msg : DeleteKeyEventMessage) : Except String DeleteKeyResponseMessage :=
  if msg.key = "" then Except.error "Invalid key name"
  else
    let ramResp := ramDel msg
    let diskResp := diskDel msg
    Except.ok { id := msg.id, response := ramResp.response + diskResp.response }

/-- StorageHandler::handleDeleteGroupEvent: validate, dispatch to both tiers,
reply with the sum of the two counts. -/
def handleDeleteGroupEvent
    (ramDel diskDel : DeleteGroupEventMessage → DeleteGroupResponseMessage)
    (msg : DeleteGroupEventMessage) : Except String DeleteGroupResponseMessage :=
  if msg.group = "" then Except.error "Invalid group name"
  else
    let ramResp := ramDel msg
    let diskResp := diskDel msg
    Except.ok { id := msg.id, response := ramResp.response + diskResp.response }

/-- StorageHandler::handleListEvent: send to the disk tier, send to the RAM
tier (each send performs the registry lookup and throws "Event not found!"
when the target registered no handler for ListEventMessage), then reply with
the RAM entries prepended to the disk entries. -/
def handleListEvent
    (diskSub ramSub : Option (ListEventMessage → ListEventReponseMessage))
    (msg : ListEventMessage) : Except String ListEventReponseMessage := do
  let diskResp ← EventBus.send diskSub msg
  let ramResp ← EventBus.send ramSub msg
  pure { id := msg.id, response := ramResp.response ++ diskResp.response }

end StorageHandler

/-! ### Reply packaging (src/include/network/UnixSocket.h)

`SocketHandler::handleClient` serializes a successful typed response into a
JSON object with `id` and `response` fields; a handler exception is caught
and serialized as an object with a single `error` field. -/

/-- The JSON value placed under the `response` field of a success reply. -/
inductive JsonResp where
  | bool (b : Bool)
  | str (s : String)
  | int (n : Int)
  | kvArray (l : List KeyValue)
  | entryArray (l : List StorageEntry)
deriving Repr, DecidableEq

/-- A serialized reply line: either a success object with `id` and
`response`, or an object with an `error` field. -/
inductive Reply where
  | ok (id : String) (response : JsonResp)
  | err (message : String)
deriving Repr, DecidableEq

namespace SocketHandler

def packageSet (r : Except String SetResponseMessage) : Reply :=
  match r with
  | Except.ok resp => Reply.ok resp.id (JsonResp.bool resp.response)
  | Except.error e => Reply.err e

def packageGetKey (r : Except String GetKeyResponseMessage) : Reply :=
  match r with
  | Except.ok resp => Reply.ok resp.id (JsonResp.str resp.response)
  | Except.error e => Reply.err e

def packageGetGroup (r : Except String GetGroupResponseMessage) : Reply :=
  match r with
  | Except.ok resp => Reply.ok resp.id (JsonResp.kvArray resp.response)
  | Except.error e => Reply.err e

def packageDeleteKey (r : Except String DeleteKeyResponseMessage) : Reply :=
  match r with
  | Except.ok resp => Reply.ok resp.id (JsonResp.int resp.response)
  | Except.error e => Reply.err e

def packageDeleteGroup (r : Except String DeleteGroupResponseMessage) : Reply :=
  match r with
  | Except.ok resp => Reply.ok resp.id (JsonResp.int resp.response)
  | Except.error e => Reply.err e

def packageList (r : Except String ListEventReponseMessage) : Reply :=
  match r with
  | Except.ok resp => Reply.ok resp.id (JsonResp.entryArray resp.response)
  | Except.error e => Reply.err e

end SocketHandler

/-! ### Invariants of the memory store

Spec invariants I1 (map / ordering-index bijection) and I2 (exact usage
accounting), stated over the embedded state and proved inductively over every
operation of the store. -/

/-- The eviction-queue node belonging to a map entry: the multimap maps the
insertion instant to the key. -/
def queueNode (p : String × RamEntry) : Nat × String := (p.2.insertionTime, p.1)

/-- Sum of `calculateExactEntryUsage` over all live entries. -/
def sumUsage (m : SizeModel) (store : List (String × RamEntry)) : Nat :=
  (store.map fun p => calculateExactEntryUsage m p.1 p.2).sum

/-- The internal consistency of a RamHandler state: keys are unique (it is a
map), the usage counter is the sum of the exact usage of the live entries
(spec invariant I2), and the eviction queue is, up to order, exactly one node
per live entry (spec invariant I1). -/
structure RamInv (m : SizeModel) (s : RamState) : Prop where
  nodupKeys : (s.store.map Prod.fst).Nodup
  usage_eq : s.currentUsage = sumUsage m s.store
  queue_perm : s.evictionQueue.Perm (s.store.map queueNode)

theorem ramInv_init (m : SizeModel) (n : Nat) : RamInv m (RamState.init n) :=
  ⟨List.nodup_nil, rfl, List.Perm.refl _⟩

/-! Association-list facts about `mapFind?` and `mapErase`. -/

theorem mapFind?_mem {β : Type} {l : List (String × β)} {k : String} {e : β}
    (h : mapFind? l k = some e) : (k, e) ∈ l := by
  induction l with
  | nil => simp [mapFind?] at h
  | cons hd tl ih =>
    obtain ⟨k', e'⟩ := hd
    by_cases hk : k' = k
    · subst hk
      simp [mapFind?] at h
      simp [h]
    · simp [mapFind?, hk] at h
      exact List.mem_cons_of_mem _ (ih h)

theorem mapFind?_eq_none {β : Type} {l : List (String × β)} {k : String}
    (h : mapFind? l k = none) : k ∉ l.map Prod.fst := by
  induction l with
  | nil => simp
  | cons hd tl ih =>
    obtain ⟨k', e'⟩ := hd
    by_cases hk : k' = k
    · subst hk; simp [mapFind?] at h
    · simp only [mapFind?, if_neg hk] at h
      simp only [List.map_cons, List.mem_cons]
      push_neg
      exact ⟨fun hkk => hk hkk.symm, ih h⟩

/-- Finding an entry splits the map, up to order, into that entry and the
erased remainder (find and erase both act on the first occurrence of the
key). -/
theorem store_perm_find_erase {β : Type} {l : List (String × β)} {k : String}
    {e : β} (h : mapFind? l k = some e) :
    l.Perm ((k, e) :: mapErase l k) := by
  induction l with
  | nil => simp [mapFind?] at h
  | cons hd tl ih =>
    obtain ⟨k', e'⟩ := hd
    by_cases hk : k' = k
    · subst hk
      have he : e' = e := by simpa [mapFind?] using h
      rw [show mapErase ((k', e') :: tl) k' = tl from by simp [mapErase]]
      rw [he]
    · simp only [mapFind?, if_neg hk] at h
      rw [show mapErase ((k', e') :: tl) k = (k', e') :: mapErase tl k from by
        simp [mapErase, hk]]
      exact ((ih h).cons _).trans (List.Perm.swap _ _ _)

theorem mapErase_sublist {β : Type} (l : List (String × β)) (k : String) :
    (mapErase l k).Sublist l := by
  induction l with
  | nil => exact List.nil_sublist _
  | cons hd tl ih =>
    obtain ⟨k', e'⟩ := hd
    by_cases hk : k' = k
    · rw [show mapErase ((k', e') :: tl) k = tl from by simp [mapErase, hk]]
      exact List.sublist_cons_self _ _
    · rw [show mapErase ((k', e') :: tl) k = (k', e') :: mapErase tl k from by
        simp [mapErase, hk]]
      exact ih.cons₂ _

/-- With unique keys, any member entry is the one the map lookup finds. -/
theorem mapFind?_of_mem_nodup {β : Type} {l : List (String × β)} {k : String}
    {e : β} (hnd : (l.map Prod.fst).Nodup) (hmem : (k, e) ∈ l) :
    mapFind? l k = some e := by
  induction l with
  | nil => simp at hmem
  | cons hd tl ih =>
    obtain ⟨k', e'⟩ := hd
    simp only [List.map_cons, List.nodup_cons] at hnd
    rcases List.mem_cons.mp hmem with heq | hmem'
    · rw [Prod.mk.injEq] at heq
      obtain ⟨hk, he⟩ := heq
      simp [mapFind?, ← hk, ← he]
    · have hk : k' ≠ k := by
        intro hkk
        subst hkk
        exact hnd.1 (List.mem_map_of_mem Prod.fst hmem')
      simp only [mapFind?, if_neg hk]
      exact ih hnd.2 hmem'

/-! Multimap facts about `mmInsert` and `mmEraseNode`. -/

theorem mmInsert_perm (q : List (Nat × String)) (t : Nat) (k : String) :
    (mmInsert q t k).Perm ((t, k) :: q) := by
  induction q with
  | nil => exact List.Perm.refl _
  | cons hd tl ih =>
    obtain ⟨t', k'⟩ := hd
    by_cases ht : t' ≤ t
    · rw [show mmInsert ((t', k') :: tl) t k = (t', k') :: mmInsert tl t k from by
        simp [mmInsert, ht]]
      exact (ih.cons _).trans (List.Perm.swap _ _ _)
    · rw [show mmInsert ((t', k') :: tl) t k = (t, k) :: (t', k') :: tl from by
        simp [mmInsert, ht]]

/-- When the new instant is at least every instant already queued, the new
node lands at the very end of the queue — the newest position. -/
theorem mmInsert_eq_append {q : List (Nat × String)} {t : Nat} (k : String)
    (h : ∀ x ∈ q, x.1 ≤ t) : mmInsert q t k = q ++ [(t, k)] := by
  induction q with
  | nil => rfl
  | cons hd tl ih =>
    obtain ⟨t', k'⟩ := hd
    have ht : t' ≤ t := h (t', k') (List.mem_cons_self _ _)
    rw [show mmInsert ((t', k') :: tl) t k = (t', k') :: mmInsert tl t k from by
      simp [mmInsert, ht]]
    rw [ih fun x hx => h x (List.mem_cons_of_mem _ hx)]
    rfl

theorem mmEraseNode_perm {q : List (Nat × String)} {t : Nat} {k : String}
    (h : (t, k) ∈ q) : q.Perm ((t, k) :: mmEraseNode q t k) := by
  induction q with
  | nil => simp at h
  | cons hd tl ih =>
    obtain ⟨t', k'⟩ := hd
    by_cases he : t' = t ∧ k' = k
    · obtain ⟨rfl, rfl⟩ := he
      rw [show mmEraseNode ((t', k') :: tl) t' k' = tl from by simp [mmEraseNode]]
    · have hmem : (t, k) ∈ tl := by
        rcases List.mem_cons.mp h with heq | hmem'
        · rw [Prod.mk.injEq] at heq
          exact absurd ⟨heq.1.symm, heq.2.symm⟩ he
        · exact hmem'
      rw [show mmEraseNode ((t', k') :: tl) t k = (t', k') :: mmEraseNode tl t k from by
        simp [mmEraseNode, he]]
      exact ((ih hmem).cons _).trans (List.Perm.swap _ _ _)

/-- Erasing the designated node inverts prepending it, up to order. -/
theorem mmEraseNode_perm_of_perm {q r : List (Nat × String)} {t : Nat}
    {k : String} (h : q.Perm ((t, k) :: r)) : (mmEraseNode q t k).Perm r := by
  have hmem : (t, k) ∈ q := h.mem_iff.mpr (List.mem_cons_self _ _)
  exact ((mmEraseNode_perm hmem).symm.trans h).cons_inv

theorem mmEraseNode_sublist (q : List (Nat × String)) (t : Nat) (k : String) :
    (mmEraseNode q t k).Sublist q := by
  induction q with
  | nil => exact List.nil_sublist _
  | cons hd tl ih =>
    obtain ⟨t', k'⟩ := hd
    by_cases he : t' = t ∧ k' = k
    · rw [show mmEraseNode ((t', k') :: tl) t k = tl from by simp [mmEraseNode, he]]
      exact List.sublist_cons_self _ _
    · rw [show mmEraseNode ((t', k') :: tl) t k = (t', k') :: mmEraseNode tl t k from by
        simp [mmEraseNode, he]]
      exact ih.cons₂ _

/-! Sum-of-usage facts. -/

theorem sumUsage_perm (m : SizeModel) {l₁ l₂ : List (String × RamEntry)}
    (h : l₁.Perm l₂) : sumUsage m l₁ = sumUsage m l₂ :=
  (h.map _).sum_eq

theorem sumUsage_cons (m : SizeModel) (k : String) (e : RamEntry)
    (l : List (String × RamEntry)) :
    sumUsage m ((k, e) :: l) = calculateExactEntryUsage m k e + sumUsage m l := by
  simp [sumUsage]

/-! Preservation of the invariant by every mutating operation. -/

/-- Removing a found entry — the shared shape of the overwrite branch of set,
of delete-by-key, and of one eviction — keeps all three invariant components
and frees exactly the entry's usage. -/
theorem removeEntry_inv (m : SizeModel) {s : RamState} (inv : RamInv m s)
    {k : String} {e : RamEntry} (hfind : mapFind? s.store k = some e) :
    ((mapErase s.store k).map Prod.fst).Nodup
    ∧ k ∉ (mapErase s.store k).map Prod.fst
    ∧ s.currentUsage - calculateExactEntryUsage m k e
        = sumUsage m (mapErase s.store k)
    ∧ (mmEraseNode s.evictionQueue e.insertionTime k).Perm
        ((mapErase s.store k).map queueNode) := by
  obtain ⟨hnd, husage, hqueue⟩ := inv
  have h1 : s.store.Perm ((k, e) :: mapErase s.store k) :=
    store_perm_find_erase hfind
  have hkeys : (s.store.map Prod.fst).Perm
      (k :: (mapErase s.store k).map Prod.fst) := by
    simpa using h1.map Prod.fst
  have hnd' := hkeys.nodup hnd
  rw [List.nodup_cons] at hnd'
  have hsum : sumUsage m s.store
      = calculateExactEntryUsage m k e + sumUsage m (mapErase s.store k) := by
    rw [sumUsage_perm m h1, sumUsage_cons]
  have hq : s.evictionQueue.Perm
      ((e.insertionTime, k) :: (mapErase s.store k).map queueNode) := by
    refine hqueue.trans ?_
    simpa [queueNode] using h1.map queueNode
  refine ⟨hnd'.2, hnd'.1, ?_, mmEraseNode_perm_of_perm hq⟩
  omega

theorem ramInv_set (m : SizeModel) {s : RamState} (inv : RamInv m s)
    (msg : SetEventMessage) (now : Nat) :
    RamInv m (RamHandler.handleSetEvent m s msg now).1 := by
  cases hfind : mapFind? s.store msg.key with
  | none =>
    have hk : msg.key ∉ s.store.map Prod.fst := mapFind?_eq_none hfind
    obtain ⟨hnd, husage, hqueue⟩ := inv
    refine ⟨?_, ?_, ?_⟩ <;> simp only [RamHandler.handleSetEvent, hfind]
    · rw [List.map_cons]
      exact List.nodup_cons.mpr ⟨hk, hnd⟩
    · rw [sumUsage_cons, husage]
      omega
    · exact (mmInsert_perm _ _ _).trans (hqueue.cons _)
  | some old =>
    obtain ⟨hndA, hkA, husageA, hqueueA⟩ := removeEntry_inv m inv hfind
    refine ⟨?_, ?_, ?_⟩ <;> simp only [RamHandler.handleSetEvent, hfind]
    · rw [List.map_cons]
      exact List.nodup_cons.mpr ⟨hkA, hndA⟩
    · rw [sumUsage_cons, husageA]
      omega
    · exact (mmInsert_perm _ _ _).trans (hqueueA.cons _)

theorem ramInv_deleteKey (m : SizeModel) {s : RamState} (inv : RamInv m s)
    (msg : DeleteKeyEventMessage) :
    RamInv m (RamHandler.handleDeleteKeyEvent m s msg).1 := by
  cases hfind : mapFind? s.store msg.key with
  | none => simpa only [RamHandler.handleDeleteKeyEvent, hfind] using inv
  | some e =>
    obtain ⟨hndA, hkA, husageA, hqueueA⟩ := removeEntry_inv m inv hfind
    exact ⟨by simpa only [RamHandler.handleDeleteKeyEvent, hfind] using hndA,
           by simpa only [RamHandler.handleDeleteKeyEvent, hfind] using husageA,
           by simpa only [RamHandler.handleDeleteKeyEvent, hfind] using hqueueA⟩

theorem deleteGroupLoop_inv (m : SizeModel) (g : String) :
    ∀ (l : List (String × RamEntry)) (q : List (Nat × String)) (u c : Nat)
      (ext : List (Nat × String)) (extraU : Nat),
      q.Perm (ext ++ l.map queueNode) →
      u = extraU + sumUsage m l →
      ((RamHandler.deleteGroupLoop m g l q u c).1.map Prod.fst).Sublist
          (l.map Prod.fst)
      ∧ (RamHandler.deleteGroupLoop m g l q u c).2.1.Perm
          (ext ++ (RamHandler.deleteGroupLoop m g l q u c).1.map queueNode)
      ∧ (RamHandler.deleteGroupLoop m g l q u c).2.2.1
          = extraU + sumUsage m (RamHandler.deleteGroupLoop m g l q u c).1 := by
  intro l
  induction l with
  | nil =>
    intro q u c ext extraU hq hu
    refine ⟨List.Sublist.refl _, ?_, ?_⟩
    · simpa [RamHandler.deleteGroupLoop] using hq
    · simpa [RamHandler.deleteGroupLoop, sumUsage] using hu
  | cons hd tl ih =>
    intro q u c ext extraU hq hu
    obtain ⟨k, e⟩ := hd
    by_cases hg : e.group = g
    · have hq' : q.Perm ((e.insertionTime, k) :: (ext ++ tl.map queueNode)) := by
        refine hq.trans ?_
        rw [List.map_cons]
        exact List.perm_middle
      have herase := mmEraseNode_perm_of_perm hq'
      have hu' : u - calculateExactEntryUsage m k e = extraU + sumUsage m tl := by
        rw [hu, sumUsage_cons]
        omega
      obtain ⟨hsub, hperm, husg⟩ := ih _ _ (c + 1) ext extraU herase hu'
      rw [show RamHandler.deleteGroupLoop m g ((k, e) :: tl) q u c
          = RamHandler.deleteGroupLoop m g tl (mmEraseNode q e.insertionTime k)
              (u - calculateExactEntryUsage m k e) (c + 1) from by
        simp [RamHandler.deleteGroupLoop, hg]]
      refine ⟨hsub.trans ?_, hperm, husg⟩
      rw [List.map_cons]
      exact List.sublist_cons_self _ _
    · have hq' : q.Perm ((ext ++ [(e.insertionTime, k)]) ++ tl.map queueNode) := by
        rw [List.append_assoc, List.singleton_append]
        rw [List.map_cons] at hq
        exact hq
      have hu' : u = (extraU + calculateExactEntryUsage m k e) + sumUsage m tl := by
        rw [hu, sumUsage_cons]
        omega
      obtain ⟨hsub, hperm, husg⟩ :=
        ih q u c (ext ++ [(e.insertionTime, k)]) _ hq' hu'
      rw [show RamHandler.deleteGroupLoop m g ((k, e) :: tl) q u c
          = ((k, e) :: (RamHandler.deleteGroupLoop m g tl q u c).1,
             (RamHandler.deleteGroupLoop m g tl q u c).2) from by
        simp [RamHandler.deleteGroupLoop, hg]]
      refine ⟨?_, ?_, ?_⟩
      · rw [List.map_cons, List.map_cons]
        exact hsub.cons₂ _
      · rw [List.map_cons]
        refine hperm.trans ?_
        rw [List.append_assoc, List.singleton_append]
        exact List.Perm.refl _
      · show (RamHandler.deleteGroupLoop m g tl q u c).2.2.1
            = extraU + sumUsage m ((k, e) :: (RamHandler.deleteGroupLoop m g tl q u c).1)
        rw [sumUsage_cons]
        omega

theorem ramInv_deleteGroup (m : SizeModel) {s : RamState} (inv : RamInv m s)
    (msg : DeleteGroupEventMessage) :
    RamInv m (RamHandler.handleDeleteGroupEvent m s msg).1 := by
  obtain ⟨hnd, hu, hq⟩ := inv
  obtain ⟨hsub, hperm, husg⟩ := deleteGroupLoop_inv m msg.group s.store
    s.evictionQueue s.currentUsage 0 [] 0 (by simpa using hq) (by omega)
  refine ⟨?_, ?_, ?_⟩ <;> simp only [RamHandler.handleDeleteGroupEvent]
  · exact hsub.nodup hnd
  · omega
  · simpa using hperm

theorem ttlSweepLoop_inv (m : SizeModel) (now : Nat) :
    ∀ (l : List (String × RamEntry)) (q : List (Nat × String)) (u : Nat)
      (ext : List (Nat × String)) (extraU : Nat),
      q.Perm (ext ++ l.map queueNode) →
      u = extraU + sumUsage m l →
      ((RamHandler.ttlSweepLoop m now l q u).1.map Prod.fst).Sublist
          (l.map Prod.fst)
      ∧ (RamHandler.ttlSweepLoop m now l q u).2.1.Perm
          (ext ++ (RamHandler.ttlSweepLoop m now l q u).1.map queueNode)
      ∧ (RamHandler.ttlSweepLoop m now l q u).2.2
          = extraU + sumUsage m (RamHandler.ttlSweepLoop m now l q u).1 := by
  intro l
  induction l with
  | nil =>
    intro q u ext extraU hq hu
    refine ⟨List.Sublist.refl _, ?_, ?_⟩
    · simpa [RamHandler.ttlSweepLoop] using hq
    · simpa [RamHandler.ttlSweepLoop, sumUsage] using hu
  | cons hd tl ih =>
    intro q u ext extraU hq hu
    obtain ⟨k, e⟩ := hd
    by_cases hexp : now ≥ e.expirationTime
    · have hq' : q.Perm ((e.insertionTime, k) :: (ext ++ tl.map queueNode)) := by
        refine hq.trans ?_
        rw [List.map_cons]
        exact List.perm_middle
      have herase := mmEraseNode_perm_of_perm hq'
      have hu' : u - calculateExactEntryUsage m k e = extraU + sumUsage m tl := by
        rw [hu, sumUsage_cons]
        omega
      obtain ⟨hsub, hperm, husg⟩ := ih _ _ ext extraU herase hu'
      rw [show RamHandler.ttlSweepLoop m now ((k, e) :: tl) q u
          = RamHandler.ttlSweepLoop m now tl (mmEraseNode q e.insertionTime k)
              (u - calculateExactEntryUsage m k e) from by
        simp [RamHandler.ttlSweepLoop, hexp]]
      refine ⟨hsub.trans ?_, hperm, husg⟩
      rw [List.map_cons]
      exact List.sublist_cons_self _ _
    · have hq' : q.Perm ((ext ++ [(e.insertionTime, k)]) ++ tl.map queueNode) := by
        rw [List.append_assoc, List.singleton_append]
        rw [List.map_cons] at hq
        exact hq
      have hu' : u = (extraU + calculateExactEntryUsage m k e) + sumUsage m tl := by
        rw [hu, sumUsage_cons]
        omega
      obtain ⟨hsub, hperm, husg⟩ :=
        ih q u (ext ++ [(e.insertionTime, k)]) _ hq' hu'
      rw [show RamHandler.ttlSweepLoop m now ((k, e) :: tl) q u
          = ((k, e) :: (RamHandler.ttlSweepLoop m now tl q u).1,
             (RamHandler.ttlSweepLoop m now tl q u).2) from by
        simp [RamHandler.ttlSweepLoop, hexp]]
      refine ⟨?_, ?_, ?_⟩
      · rw [List.map_cons, List.map_cons]
        exact hsub.cons₂ _
      · rw [List.map_cons]
        refine hperm.trans ?_
        rw [List.append_assoc, List.singleton_append]
        exact List.Perm.refl _
      · show (RamHandler.ttlSweepLoop m now tl q u).2.2
            = extraU + sumUsage m ((k, e) :: (RamHandler.ttlSweepLoop m now tl q u).1)
        rw [sumUsage_cons]
        omega

theorem ramInv_sizeEvictStep (m : SizeModel) {s : RamState} (inv : RamInv m s) :
    RamInv m (RamHandler.sizeEvictStep m s) := by
  obtain ⟨hnd, hu, hq⟩ := inv
  cases hqe : s.evictionQueue with
  | nil =>
    refine ⟨?_, ?_, ?_⟩ <;> simp only [RamHandler.sizeEvictStep, hqe]
    · exact hnd
    · exact hu
    · rw [← hqe]
      exact hq
  | cons hd rest =>
    obtain ⟨t, key⟩ := hd
    have hmem : (t, key) ∈ s.store.map queueNode := by
      refine hq.mem_iff.mp ?_
      rw [hqe]
      exact List.mem_cons_self _ _
    obtain ⟨p, hp, hpeq⟩ := List.mem_map.mp hmem
    obtain ⟨k₀, e₀⟩ := p
    rw [show queueNode (k₀, e₀) = (e₀.insertionTime, k₀) from rfl,
      Prod.mk.injEq] at hpeq
    obtain ⟨ht, hk⟩ := hpeq
    have hk2 : key = k₀ := hk.symm
    subst hk2
    have hfind : mapFind? s.store key = some e₀ := mapFind?_of_mem_nodup hnd hp
    obtain ⟨hndA, hkA, husageA, hqueueA⟩ := removeEntry_inv m ⟨hnd, hu, hq⟩ hfind
    have h1 := store_perm_find_erase hfind
    have hrest : rest.Perm ((mapErase s.store key).map queueNode) := by
      have hq2 : ((t, key) :: rest).Perm
          ((t, key) :: (mapErase s.store key).map queueNode) := by
        refine (hqe ▸ hq).trans ?_
        have := h1.map queueNode
        rw [List.map_cons] at this
        rw [show queueNode (key, e₀) = (t, key) from by simp [queueNode, ht]] at this
        exact this
      exact hq2.cons_inv
    refine ⟨?_, ?_, ?_⟩ <;> simp only [RamHandler.sizeEvictStep, hqe, hfind]
    · exact hndA
    · exact husageA
    · exact hrest

theorem sizeEvictStep_queue_length (m : SizeModel) {s : RamState}
    (h : s.evictionQueue ≠ []) :
    (RamHandler.sizeEvictStep m s).evictionQueue.length + 1
      = s.evictionQueue.length := by
  cases hqe : s.evictionQueue with
  | nil => exact absurd hqe h
  | cons hd rest =>
    obtain ⟨t, key⟩ := hd
    cases hfind : mapFind? s.store key <;>
      simp [RamHandler.sizeEvictStep, hqe, hfind]

theorem ramInv_sizeEvictLoop_fuel (m : SizeModel) :
    ∀ (n : Nat) (s : RamState), s.evictionQueue.length ≤ n → RamInv m s →
      RamInv m (RamHandler.sizeEvictLoop m s) := by
  intro n
  induction n with
  | zero =>
    intro s hlen inv
    have hqe : s.evictionQueue = [] := List.eq_nil_of_length_eq_zero (by omega)
    rw [RamHandler.sizeEvictLoop]
    rw [dif_neg (by simp [hqe])]
    exact inv
  | succ n ih =>
    intro s hlen inv
    rw [RamHandler.sizeEvictLoop]
    by_cases hguard : s.currentUsage > s.maxSizeBytes ∧ s.evictionQueue ≠ []
    · rw [dif_pos hguard]
      refine ih _ ?_ (ramInv_sizeEvictStep m inv)
      have := sizeEvictStep_queue_length m hguard.2
      omega
    · rw [dif_neg hguard]
      exact inv

theorem ramInv_sizeEvictLoop (m : SizeModel) {s : RamState} (inv : RamInv m s) :
    RamInv m (RamHandler.sizeEvictLoop m s) :=
  ramInv_sizeEvictLoop_fuel m s.evictionQueue.length s (Nat.le_refl _) inv

theorem ramInv_bgTick (m : SizeModel) {s : RamState} (inv : RamInv m s)
    (now : Nat) : RamInv m (RamHandler.backgroundCheckerTick m s now) := by
  obtain ⟨hnd, hu, hq⟩ := inv
  obtain ⟨hsub, hperm, husg⟩ := ttlSweepLoop_inv m now s.store s.evictionQueue
    s.currentUsage [] 0 (by simpa using hq) (by omega)
  refine ramInv_sizeEvictLoop m ⟨?_, ?_, ?_⟩
  · exact hsub.nodup hnd
  · show (RamHandler.ttlSweepLoop m now s.store s.evictionQueue s.currentUsage).2.2
      = sumUsage m (RamHandler.ttlSweepLoop m now s.store s.evictionQueue s.currentUsage).1
    omega
  · simpa using hperm

/-! The operations of the store as a single step type, to quantify over
arbitrary operation sequences. -/

inductive RamOp where
  | set (msg : SetEventMessage) (now : Nat)
  | getKey (msg : GetKeyEventMessage) (now : Nat)
  | getGroup (msg : GetGroupEventMessage)
  | deleteKey (msg : DeleteKeyEventMessage)
  | deleteGroup (msg : DeleteGroupEventMessage)
  | listAll (msg : ListEventMessage)
  | bgCheck (now : Nat)

/-- The state after one operation.  The read operations hold the lock and
leave the state untouched; the mutators are the handlers above; `bgCheck` is
one wakeup of the background worker. -/
def applyRamOp (m : SizeModel) (s : RamState) : RamOp → RamState
  | RamOp.set msg now => (RamHandler.handleSetEvent m s msg now).1
  | RamOp.getKey _ _ => s
  | RamOp.getGroup _ => s
  | RamOp.deleteKey msg => (RamHandler.handleDeleteKeyEvent m s msg).1
  | RamOp.deleteGroup msg => (RamHandler.handleDeleteGroupEvent m s msg).1
  | RamOp.listAll _ => s
  | RamOp.bgCheck now => RamHandler.backgroundCheckerTick m s now

def applyRamOps (m : SizeModel) (s : RamState) (ops : List RamOp) : RamState :=
  ops.foldl (applyRamOp m) s

theorem ramInv_applyRamOp (m : SizeModel) {s : RamState} (inv : RamInv m s)
    (op : RamOp) : RamInv m (applyRamOp m s op) := by
  cases op with
  | set msg now => exact ramInv_set m inv msg now
  | getKey msg now => exact inv
  | getGroup msg => exact inv
  | deleteKey msg => exact ramInv_deleteKey m inv msg
  | deleteGroup msg => exact ramInv_deleteGroup m inv msg
  | listAll msg => exact inv
  | bgCheck now => exact ramInv_bgTick m inv now

theorem ramInv_applyRamOps (m : SizeModel) :
    ∀ (ops : List RamOp) (s : RamState), RamInv m s →
      RamInv m (applyRamOps m s ops) := by
  intro ops
  induction ops with
  | nil => intro s inv; exact inv
  | cons op rest ih =>
    intro s inv
    exact ih _ (ramInv_applyRamOp m inv op)

/-- The termination measure of the size-eviction while-loop: meeting the
guard, one iteration removes exactly one node from the queue (both the
found branch and the defensive branch erase one node). -/
theorem sizeEvictLoop_post_fuel (m : SizeModel) :
    ∀ (n : Nat) (s : RamState), s.evictionQueue.length ≤ n →
      (RamHandler.sizeEvictLoop m s).currentUsage
          ≤ (RamHandler.sizeEvictLoop m s).maxSizeBytes
        ∨ (RamHandler.sizeEvictLoop m s).evictionQueue = [] := by
  intro n
  induction n with
  | zero =>
    intro s hlen
    have hqe : s.evictionQueue = [] := List.eq_nil_of_length_eq_zero (by omega)
    rw [RamHandler.sizeEvictLoop, dif_neg (by simp [hqe])]
    right
    exact hqe
  | succ n ih =>
    intro s hlen
    rw [RamHandler.sizeEvictLoop]
    by_cases hguard : s.currentUsage > s.maxSizeBytes ∧ s.evictionQueue ≠ []
    · rw [dif_pos hguard]
      refine ih _ ?_
      have := sizeEvictStep_queue_length m hguard.2
      omega
    · rw [dif_neg hguard]
      by_cases husage : s.currentUsage > s.maxSizeBytes
      · right
        by_contra hqe
        exact hguard ⟨husage, hqe⟩
      · left
        omega

/-! ### Demonstration states used by the closed claim theorems and by the
witnesses. -/

/-- An entry whose expiration instant 5 is already in the past at instant
10. -/
def expiredDemoEntry : RamEntry :=
  { value := "v", group := "g", insertionTime := 0, expirationTime := 5 }

/-- A store holding only the expired entry under key "k". -/
def expiredDemoState : RamState :=
  { store := [("k", expiredDemoEntry)], evictionQueue := [(0, "k")],
    maxSizeBytes := 1024, currentUsage := 129 }

def demoSet1 : SetEventMessage :=
  { id := "1", persistent := false, ttl := 5, key := "k", value := "v1",
    group := "g" }

def demoSet2 : SetEventMessage :=
  { id := "2", persistent := false, ttl := 0, key := "k", value := "v2",
    group := "g" }

/-- The store after one set of "k" at instant 3 with ttl 5. -/
def demoState1 : RamState :=
  (RamHandler.handleSetEvent byteModel (RamState.init 10) demoSet1 3).1

/-- A state over the size cap whose queue holds one node. -/
def demoEvictState : RamState :=
  { store := [("k", expiredDemoEntry)], evictionQueue := [(0, "k")],
    maxSizeBytes := 0, currentUsage := 129 }

/-- A one-row durable table holding key "k" in group "g". -/
def demoDisk : DiskState := [{ key := "k", value := "x", group_name := "g" }]

/-! ### The claims -/

/-- Claim C1 — code bug.  `RamHandler::handleGetKeyEvent` computes `now` but
never compares it with the entry's expiration time, although its own comment
promises "an empty string if not found or expired" and spec invariant I4
forbids returning an entry with `now ≥ expiration`.  Concretely: an entry
expired at instant 5 is still returned in full at instant 10 — indeed at
every instant — instead of the empty string. -/
theorem ram_getKey_returns_expired_value :
    10 ≥ expiredDemoEntry.expirationTime
    ∧ (∀ now : Nat,
        (RamHandler.handleGetKeyEvent expiredDemoState
          { id := "1", key := "k" } now).response = "v")
    ∧ ("v" : String) ≠ "" :=
  ⟨by decide, fun _ => rfl, by decide⟩

/-- Claim C2 — code bug.  The router's list path sends a ListEventMessage to
HandlerID::DiskHandler, but the DiskHandler constructor registers no handler
for that message type, so EventBus::send throws "Event not found!" — for
every request and whatever the memory tier would answer.  The durable tier
does not implement the list operation, and the router's list therefore never
returns the memory-first concatenation the spec describes. -/
theorem router_list_always_event_not_found
    (ramSub : Option (ListEventMessage → ListEventReponseMessage))
    (msg : ListEventMessage) :
    StorageHandler.handleListEvent DiskHandler.listSubscription ramSub msg
      = Except.error "Event not found!" := rfl

/-- Claim C3 — confirmed.  After every sequence of set, delete-by-key,
delete-by-group and background-worker (TTL expiry plus size eviction)
operations on the memory store, the running usage counter equals the sum of
`calculateExactEntryUsage(key, entry)` over the live entries: each removal
path subtracts exactly the function that insertion added. -/
theorem ram_usage_equals_sum_of_entry_usages (m : SizeModel) (maxSizeMB : Nat)
    (ops : List RamOp) :
    (applyRamOps m (RamState.init maxSizeMB) ops).currentUsage
      = sumUsage m (applyRamOps m (RamState.init maxSizeMB) ops).store :=
  (ramInv_applyRamOps m ops _ (ramInv_init m maxSizeMB)).usage_eq

/-- Claim C4 — confirmed.  At every quiescent point — after any sequence of
complete memory-store operations — the eviction queue is a permutation of
exactly one node `(insertionTime, key)` per stored entry; in particular the
queue's keys are a permutation of the store's keys, and the store's keys are
distinct, so the correspondence is one-to-one. -/
theorem ram_store_eviction_queue_bijection (m : SizeModel) (maxSizeMB : Nat)
    (ops : List RamOp) :
    ((applyRamOps m (RamState.init maxSizeMB) ops).evictionQueue.Perm
        ((applyRamOps m (RamState.init maxSizeMB) ops).store.map queueNode))
    ∧ (((applyRamOps m (RamState.init maxSizeMB) ops).evictionQueue.map
          Prod.snd).Perm
        ((applyRamOps m (RamState.init maxSizeMB) ops).store.map Prod.fst))
    ∧ ((applyRamOps m (RamState.init maxSizeMB) ops).store.map
        Prod.fst).Nodup := by
  obtain ⟨hnd, hu, hq⟩ := ramInv_applyRamOps m ops _ (ramInv_init m maxSizeMB)
  refine ⟨hq, ?_, hnd⟩
  have h := hq.map Prod.snd
  rw [List.map_map] at h
  refine h.trans ?_
  rw [show (Prod.snd ∘ queueNode)
      = (Prod.fst : String × RamEntry → String) from rfl]

/-- Claim C5 — confirmed.  For a get-key with a non-empty key the router
queries the memory tier first; a non-empty memory answer is returned as is —
and the result does not depend on the durable-tier oracle at all, so the
durable tier is not consulted — while an empty memory answer makes the
router return exactly the durable tier's answer, possibly also empty. -/
theorem router_getKey_memory_first
    (ramGet diskGet : GetKeyEventMessage → GetKeyResponseMessage)
    (msg : GetKeyEventMessage) (hk : msg.key ≠ "") :
    ((ramGet msg).response ≠ "" →
      StorageHandler.handleGetKeyEvent ramGet diskGet msg
          = Except.ok (ramGet msg)
      ∧ ∀ diskGet₂ : GetKeyEventMessage → GetKeyResponseMessage,
          StorageHandler.handleGetKeyEvent ramGet diskGet₂ msg
            = StorageHandler.handleGetKeyEvent ramGet diskGet msg)
    ∧ ((ramGet msg).response = "" →
      StorageHandler.handleGetKeyEvent ramGet diskGet msg
        = Except.ok (diskGet msg)) := by
  constructor
  · intro hne
    constructor
    · simp [StorageHandler.handleGetKeyEvent, hk, hne]
    · intro diskGet₂
      simp [StorageHandler.handleGetKeyEvent, hk, hne]
  · intro he
    simp [StorageHandler.handleGetKeyEvent, hk, he]

theorem router_getKey_memory_first_witness :
    StorageHandler.handleGetKeyEvent (fun _ => { id := "9", response := "ramval" })
      (fun _ => { id := "9", response := "diskval" }) { id := "9", key := "k" }
      = Except.ok { id := "9", response := "ramval" } :=
  ((router_getKey_memory_first (fun _ => { id := "9", response := "ramval" })
    (fun _ => { id := "9", response := "diskval" }) { id := "9", key := "k" }
    (by decide)).1 (by decide)).1

/-- Claim C6 — confirmed.  For a non-empty key the router's delete-key reply
is the sum of the memory tier's numeric result and the durable tier's, each
of which is 0 or 1, so the sum is 0, 1 or 2; for a non-empty group the
delete-group reply is the sum of the per-tier removal counts. -/
theorem router_delete_sum_law (m : SizeModel) (ram : RamState)
    (disk : DiskState) (msgK : DeleteKeyEventMessage)
    (msgG : DeleteGroupEventMessage) (hk : msgK.key ≠ "")
    (hg : msgG.group ≠ "") :
    StorageHandler.handleDeleteKeyEvent
        (fun mg => (RamHandler.handleDeleteKeyEvent m ram mg).2)
        (fun mg => (DiskHandler.handleDeleteKeyEvent disk mg).2) msgK
      = Except.ok
          { id := msgK.id,
            response := (RamHandler.handleDeleteKeyEvent m ram msgK).2.response
              + (DiskHandler.handleDeleteKeyEvent disk msgK).2.response }
    ∧ ((RamHandler.handleDeleteKeyEvent m ram msgK).2.response
          + (DiskHandler.handleDeleteKeyEvent disk msgK).2.response = 0
      ∨ (RamHandler.handleDeleteKeyEvent m ram msgK).2.response
          + (DiskHandler.handleDeleteKeyEvent disk msgK).2.response = 1
      ∨ (RamHandler.handleDeleteKeyEvent m ram msgK).2.response
          + (DiskHandler.handleDeleteKeyEvent disk msgK).2.response = 2)
    ∧ StorageHandler.handleDeleteGroupEvent
        (fun mg => (RamHandler.handleDeleteGroupEvent m ram mg).2)
        (fun mg => (DiskHandler.handleDeleteGroupEvent disk mg).2) msgG
      = Except.ok
          { id := msgG.id,
            response := (RamHandler.handleDeleteGroupEvent m ram msgG).2.response
              + (DiskHandler.handleDeleteGroupEvent disk msgG).2.response } := by
  refine ⟨?_, ?_, ?_⟩
  · simp [StorageHandler.handleDeleteKeyEvent, hk]
  · have h1 : (RamHandler.handleDeleteKeyEvent m ram msgK).2.response = 0
        ∨ (RamHandler.handleDeleteKeyEvent m ram msgK).2.response = 1 := by
      cases hfind : mapFind? ram.store msgK.key <;>
        simp [RamHandler.handleDeleteKeyEvent, hfind]
    have h2 : (DiskHandler.handleDeleteKeyEvent disk msgK).2.response = 0
        ∨ (DiskHandler.handleDeleteKeyEvent disk msgK).2.response = 1 := by
      by_cases hc : (List.filter (fun r => r.key = msgK.key) disk).length > 0 <;>
        simp [DiskHandler.handleDeleteKeyEvent, hc]
    omega
  · simp [StorageHandler.handleDeleteGroupEvent, hg]

theorem router_delete_sum_law_witness :
    StorageHandler.handleDeleteKeyEvent
        (fun mg => (RamHandler.handleDeleteKeyEvent byteModel demoState1 mg).2)
        (fun mg => (DiskHandler.handleDeleteKeyEvent demoDisk mg).2)
        { id := "5", key := "k" }
      = Except.ok
          { id := "5",
            response := (RamHandler.handleDeleteKeyEvent byteModel demoState1
                { id := "5", key := "k" }).2.response
              + (DiskHandler.handleDeleteKeyEvent demoDisk
                { id := "5", key := "k" }).2.response } :=
  (router_delete_sum_law byteModel demoState1 demoDisk
    { id := "5", key := "k" } { id := "6", group := "g" }
    (by decide) (by decide)).1

/-- Claim C7 — confirmed.  A set on a key that is already present removes
the old entry (subtracting its exact usage and erasing its ordering-index
node) and stores a fresh entry with `insertion_time = now`; when `now` is at
least every queued instant the key's node moves to the newest end of the
ordering, and a subsequent get returns the new value. -/
theorem ram_set_existing_key_replaces (m : SizeModel) (s : RamState)
    (msg : SetEventMessage) (now : Nat) (old : RamEntry)
    (hfind : mapFind? s.store msg.key = some old)
    (hnewest : ∀ x ∈ s.evictionQueue, x.1 ≤ now) :
    mapFind? (RamHandler.handleSetEvent m s msg now).1.store msg.key
      = some { value := msg.value, group := msg.group, insertionTime := now,
               expirationTime := if msg.ttl > 0 then now + msg.ttl.toNat
                 else timePointMax }
    ∧ (RamHandler.handleSetEvent m s msg now).1.currentUsage
      = s.currentUsage - calculateExactEntryUsage m msg.key old
        + calculateExactEntryUsage m msg.key
            { value := msg.value, group := msg.group, insertionTime := now,
              expirationTime := if msg.ttl > 0 then now + msg.ttl.toNat
                else timePointMax }
    ∧ (RamHandler.handleSetEvent m s msg now).1.evictionQueue
      = mmEraseNode s.evictionQueue old.insertionTime msg.key
          ++ [(now, msg.key)]
    ∧ (RamHandler.handleGetKeyEvent (RamHandler.handleSetEvent m s msg now).1
        { id := msg.id, key := msg.key } now).response = msg.value := by
  refine ⟨?_, ?_, ?_, ?_⟩
  · simp only [RamHandler.handleSetEvent, hfind]
    simp [mapFind?]
  · simp only [RamHandler.handleSetEvent, hfind]
  · simp only [RamHandler.handleSetEvent, hfind]
    exact mmInsert_eq_append _ fun x hx =>
      hnewest x ((mmEraseNode_sublist _ _ _).subset hx)
  · simp only [RamHandler.handleSetEvent, hfind]
    simp [RamHandler.handleGetKeyEvent, mapFind?]

theorem ram_set_existing_key_replaces_witness :
    (RamHandler.handleGetKeyEvent
      (RamHandler.handleSetEvent byteModel demoState1 demoSet2 7).1
      { id := demoSet2.id, key := demoSet2.key } 7).response = "v2" :=
  (ram_set_existing_key_replaces byteModel demoState1 demoSet2 7
    { value := "v1", group := "g", insertionTime := 3, expirationTime := 8 }
    (by decide) (by decide)).2.2.2

/-- Claim C8 — confirmed.  The router rejects a set with an empty key or an
empty value, and any get-key / delete-key with an empty key or get-group /
delete-group with an empty group: for every pair of tier oracles the result
is the same thrown error — so the result does not depend on either tier and
the stores are not invoked — and the socket layer packages the message as a
reply with an `error` field, which is distinct from every successful reply,
in particular from a successful empty-result reply. -/
theorem router_rejects_invalid_requests :
    (∀ (ramSet diskSet : SetEventMessage → SetResponseMessage)
       (msg : SetEventMessage), msg.key = "" ∨ msg.value = "" →
       StorageHandler.handleSetEvent ramSet diskSet msg
         = Except.error "Invalid key or value.")
    ∧ (∀ (ramGet diskGet : GetKeyEventMessage → GetKeyResponseMessage)
       (msg : GetKeyEventMessage), msg.key = "" →
       StorageHandler.handleGetKeyEvent ramGet diskGet msg
         = Except.error "Invalid key name")
    ∧ (∀ (ramGet diskGet : GetGroupEventMessage → GetGroupResponseMessage)
       (msg : GetGroupEventMessage), msg.group = "" →
       StorageHandler.handleGetGroupEvent ramGet diskGet msg
         = Except.error "Invalid group name")
    ∧ (∀ (ramDel diskDel : DeleteKeyEventMessage → DeleteKeyResponseMessage)
       (msg : DeleteKeyEventMessage), msg.key = "" →
       StorageHandler.handleDeleteKeyEvent ramDel diskDel msg
         = Except.error "Invalid key name")
    ∧ (∀ (ramDel diskDel : DeleteGroupEventMessage → DeleteGroupResponseMessage)
       (msg : DeleteGroupEventMessage), msg.group = "" →
       StorageHandler.handleDeleteGroupEvent ramDel diskDel msg
         = Except.error "Invalid group name")
    ∧ (∀ e : String, SocketHandler.packageGetKey (Except.error e) = Reply.err e)
    ∧ (∀ (e i : String) (v : JsonResp), Reply.err e ≠ Reply.ok i v) := by
  refine ⟨?_, ?_, ?_, ?_, ?_, ?_, ?_⟩
  · intro f g msg h
    rcases h with h | h <;> simp [StorageHandler.handleSetEvent, h]
  · intro f g msg h
    simp [StorageHandler.handleGetKeyEvent, h]
  · intro f g msg h
    simp [StorageHandler.handleGetGroupEvent, h]
  · intro f g msg h
    simp [StorageHandler.handleDeleteKeyEvent, h]
  · intro f g msg h
    simp [StorageHandler.handleDeleteGroupEvent, h]
  · intro e
    rfl
  · intro e i v h
    exact Reply.noConfusion h

theorem router_rejects_invalid_requests_witness :
    StorageHandler.handleSetEvent (fun _ => { id := "w", response := true })
        (fun _ => { id := "w", response := true })
        { id := "w", persistent := false, ttl := 0, key := "", value := "v",
          group := "" }
      = Except.error "Invalid key or value."
    ∧ SocketHandler.packageGetKey (Except.error "Invalid key name")
      ≠ Reply.ok "w" (JsonResp.str "") := by
  constructor
  · exact router_rejects_invalid_requests.1 _ _ _ (Or.inl rfl)
  · rw [router_rejects_invalid_requests.2.2.2.2.2.1 "Invalid key name"]
    exact router_rejects_invalid_requests.2.2.2.2.2.2 "Invalid key name" "w"
      (JsonResp.str "")

/-- Claim C9 — confirmed.  The memory store itself performs no input
validation: every set message — the statement quantifies over all messages,
including those with an empty key or an empty value — is inserted into the
store and acknowledged with success true.  (The corresponding rejection
exists only in the storage router; see the validation theorem for claim
C8.) -/
theorem ram_set_accepts_unvalidated_input (m : SizeModel) (s : RamState)
    (msg : SetEventMessage) (now : Nat) :
    (RamHandler.handleSetEvent m s msg now).2.response = true
    ∧ mapFind? (RamHandler.handleSetEvent m s msg now).1.store msg.key
      = some { value := msg.value, group := msg.group, insertionTime := now,
               expirationTime := if msg.ttl > 0 then now + msg.ttl.toNat
                 else timePointMax } := by
  constructor
  · cases hfind : mapFind? s.store msg.key <;>
      simp [RamHandler.handleSetEvent, hfind]
  · cases hfind : mapFind? s.store msg.key <;>
      (simp only [RamHandler.handleSetEvent, hfind]; simp [mapFind?])

/-- Claim C10 — confirmed.  The size-eviction loop of the background worker
terminates for every store state: each iteration under the loop guard
removes exactly one node from the ordering index — also in the defensive
branch where the indexed key is absent from the map — so after finitely many
steps the loop stops in a state with usage ≤ max_bytes or an empty ordering
index. -/
theorem size_eviction_loop_terminates (m : SizeModel) (s : RamState) :
    (s.evictionQueue ≠ [] →
      (RamHandler.sizeEvictStep m s).evictionQueue.length + 1
        = s.evictionQueue.length)
    ∧ ((RamHandler.sizeEvictLoop m s).currentUsage
          ≤ (RamHandler.sizeEvictLoop m s).maxSizeBytes
        ∨ (RamHandler.sizeEvictLoop m s).evictionQueue = []) :=
  ⟨fun h => sizeEvictStep_queue_length m h,
   sizeEvictLoop_post_fuel m s.evictionQueue.length s (Nat.le_refl _)⟩

theorem size_eviction_loop_terminates_witness :
    ((RamHandler.sizeEvictStep byteModel demoEvictState).evictionQueue.length + 1
      = demoEvictState.evictionQueue.length)
    ∧ ((RamHandler.sizeEvictLoop byteModel demoEvictState).currentUsage
          ≤ (RamHandler.sizeEvictLoop byteModel demoEvictState).maxSizeBytes
        ∨ (RamHandler.sizeEvictLoop byteModel demoEvictState).evictionQueue
          = []) :=
  ⟨(size_eviction_loop_terminates byteModel demoEvictState).1 (by decide),
   (size_eviction_loop_terminates byteModel demoEvictState).2⟩
